import Mathlib

/-!
# `mpi_print.c`: join, query rank and size, print one line, leave

A shallow embedding of `tutorials/VECMAtk/QCG-PilotJob/examples/mpi/mpi_print.c`.

The MPI runtime and the C library are external to the program.  The runtime is a
parameter of the embedding (`Runtime`): it fixes what each of the four runtime calls
does to the calling process.  The join call and the two queries either return to
`main` or end the process on the spot (fatal error handling inside the runtime); the
leave call returns.  `printf` is modelled by an interpreter of its format string for
the `%d` conversion, the only one the program uses.

`main` is written statement by statement in a monad that threads the observable
world (trace of operations, standard output) and stops at a call that ends the
process.

C `int` values are modelled as `Int`; the program performs no arithmetic on them.
-/

namespace MpiPrint

/-! ## Data model -/

/-- Value of the constant `MPI_SUCCESS` of `mpi.h`. -/
def MPI_SUCCESS : Int := 0

/-- Smallest value of a 32-bit C `int`. -/
def INT_MIN : Int := -2147483648

/-- Largest value of a 32-bit C `int`. -/
def INT_MAX : Int := 2147483647

/-- What a call into the runtime does to the calling process: it hands a result
back to its caller, or the runtime ends the process inside the call with an exit
status (fatal error handling). -/
inductive Outcome (α : Type) where
  | returned (a : α)
  | terminated (code : Int)
  deriving DecidableEq

/-- The external MPI runtime as seen by one process.

* `init argc argv` is the outcome of `MPI_Init(&argc, &argv)`: the status returned,
  or the process ended;
* `commRank` is the outcome of `MPI_Comm_rank(MPI_COMM_WORLD, &c_id)`: the status
  returned together with the value found in `c_id` after the call, or the process
  ended;
* `commSize` is the same for `MPI_Comm_size(MPI_COMM_WORLD, &c_size)` and `c_size`;
* `finalize` is the status returned by `MPI_Finalize()`. -/
structure Runtime where
  init : Int → List String → Outcome Int
  commRank : Outcome (Int × Int)
  commSize : Outcome (Int × Int)
  finalize : Int

/-- The rank the runtime gives the process, when the rank query returns. -/
def Runtime.rank? (rt : Runtime) : Option Int :=
  match rt.commRank with
  | .returned (_, r) => some r
  | .terminated _ => none

/-- The group size the runtime gives the process, when the size query returns. -/
def Runtime.size? (rt : Runtime) : Option Int :=
  match rt.commSize with
  | .returned (_, s) => some s
  | .terminated _ => none

/-- Externally visible operations of a process. -/
inductive Op where
  | MPI_Init (argc : Int) (argv : List String)
  | MPI_Comm_rank
  | MPI_Comm_size
  | printf (text : List Char)
  | MPI_Finalize
  deriving DecidableEq

/-- The part of the world a process acts on: the operations performed so far and
the bytes written to standard output. -/
structure World where
  trace : List Op
  stdout : List Char
  deriving DecidableEq

/-- The world at process start. -/
def World.start : World := ⟨[], []⟩

/-- Result of running a piece of the program: control came back with a value, or
the process was ended by the runtime with an exit status. -/
inductive Step (α : Type) where
  | done (w : World) (a : α)
  | killed (w : World) (code : Int)
  deriving DecidableEq

/-- The world after the step. -/
def Step.world {α : Type} : Step α → World
  | .done w _ => w
  | .killed w _ => w

/-- Exit status of the process: the value `main` returned, or the status the
runtime ended the process with. -/
def Step.status : Step Int → Int
  | .done _ a => a
  | .killed _ code => code

/-- Statements of the program: world transformers that may end the process. -/
def Exec (α : Type) : Type := World → Step α

instance : Monad Exec where
  pure a := fun w => .done w a
  bind m f := fun w =>
    match m w with
    | .done w1 a => f a w1
    | .killed w1 code => .killed w1 code

/-! ## The C library: `printf` -/

/-- The `%d` conversion of `printf`: a signed decimal numeral, with a leading `-`
for a negative argument and no other padding. -/
def fmt_d (x : Int) : List Char :=
  if x < 0 then '-' :: Nat.toDigits 10 x.natAbs else Nat.toDigits 10 x.natAbs

/-- Interpretation of a `printf` format string: each `%d` consumes the next
argument, every other character is copied. -/
def format : List Char → List Int → List Char
  | [], _ => []
  | '%' :: 'd' :: rest, a :: more => fmt_d a ++ format rest more
  | c :: fmt, args => c :: format fmt args

/-- The call `printf(fmt, args...)`: appends the formatted text to standard output
and returns the number of characters written. -/
def printf (fmt : String) (args : List Int) : Exec Int := fun w =>
  let text := format fmt.toList args
  .done ⟨w.trace ++ [.printf text], w.stdout ++ text⟩ text.length

/-! ## The runtime calls -/

/-- A call into the runtime: the operation is recorded, then control comes back
with the result or the process ends. -/
def call {α : Type} (op : Op) (o : Outcome α) : Exec α := fun w =>
  match o with
  | .returned a => .done ⟨w.trace ++ [op], w.stdout⟩ a
  | .terminated code => .killed ⟨w.trace ++ [op], w.stdout⟩ code

/-- The call `MPI_Init(&argc, &argv)`: its status. -/
def MPI_Init (rt : Runtime) (argc : Int) (argv : List String) : Exec Int :=
  call (.MPI_Init argc argv) (rt.init argc argv)

/-- The call `MPI_Comm_rank(MPI_COMM_WORLD, &c_id)`: its status and the value stored
in `c_id`. -/
def MPI_Comm_rank (rt : Runtime) : Exec (Int × Int) :=
  call .MPI_Comm_rank rt.commRank

/-- The call `MPI_Comm_size(MPI_COMM_WORLD, &c_size)`: its status and the value
stored in `c_size`. -/
def MPI_Comm_size (rt : Runtime) : Exec (Int × Int) :=
  call .MPI_Comm_size rt.commSize

/-- The call `MPI_Finalize()`: its status. -/
def MPI_Finalize (rt : Runtime) : Exec Int :=
  call .MPI_Finalize (.returned rt.finalize)

/-! ## The program -/

/-- The function `main` of `mpi_print.c`. -/
def main (argc : Int) (argv : List String) (rt : Runtime) : Exec Int := do
  let _ ← MPI_Init rt argc argv
  let (_, c_id) ← MPI_Comm_rank rt
  let (_, c_size) ← MPI_Comm_size rt
  let _ ← printf "%d/%d\n" [c_id, c_size]
  let _ ← MPI_Finalize rt
  pure 0

/-- One process: `main` started in the initial world. -/
def run (argc : Int) (argv : List String) (rt : Runtime) : Step Int :=
  main argc argv rt World.start

/-- A launch of one copy of the program per runtime view: what each process wrote
to standard output.  The order of the list is the order of the views, not an order
in time. -/
def outputs (argc : Int) (argv : List String) (rts : List Runtime) : List (List Char) :=
  rts.map (fun rt => (run argc argv rt).world.stdout)

/-- The text `main` hands to `printf`, as a function of the two values printed. -/
def line (r s : Int) : List Char := format "%d/%d\n".toList [r, s]

/-- The five operations of a complete execution, in program order. -/
def fullTrace (argc : Int) (argv : List String) (r s : Int) : List Op :=
  [.MPI_Init argc argv, .MPI_Comm_rank, .MPI_Comm_size, .printf (line r s), .MPI_Finalize]

/-! ## Sample runtimes -/

/-- A runtime in which every call succeeds, reporting rank `r` and size `s`. -/
def rtOk (r s : Int) : Runtime :=
  ⟨fun _ _ => .returned MPI_SUCCESS, .returned (MPI_SUCCESS, r), .returned (MPI_SUCCESS, s),
    MPI_SUCCESS⟩

/-- A runtime that ends the process with status `1` inside the join call. -/
def rtJoinFatal : Runtime :=
  ⟨fun _ _ => .terminated 1, .returned (MPI_SUCCESS, 0), .returned (MPI_SUCCESS, 1),
    MPI_SUCCESS⟩

/-- A runtime whose join call returns the error status `1` and which, never joined,
ends the process with status `1` inside the rank query. -/
def rtJoinErrorThenFatal : Runtime :=
  ⟨fun _ _ => .returned 1, .terminated 1, .returned (MPI_SUCCESS, 1), MPI_SUCCESS⟩

/-! ## Join failure -/

/-- Modelled from the spec: the failure handling of the MPI runtime, whose code is
not part of the program.  A join failure is fatal and handled by the runtime itself,
by ending the process with a nonzero status: either inside the join call, or, when
the join call returns a status other than `MPI_SUCCESS`, inside the first query made
on the group that was never joined. -/
def joinFails (rt : Runtime) (argc : Int) (argv : List String) : Bool :=
  match rt.init argc argv with
  | .terminated code => code != 0
  | .returned st =>
    st != MPI_SUCCESS &&
      match rt.commRank with
      | .terminated code => code != 0
      | .returned _ => false

/-! ## Reading a printed line back

The reader below follows the description of the inverse direction: drop the
trailing newline, split at the only `/`, read both parts as decimal integers. -/

/-- Reads a non-empty string of decimal digits. -/
def parseNat (cs : List Char) : Option Nat :=
  if cs ≠ [] ∧ cs.all Char.isDigit = true then
    some (cs.foldl (fun acc c => acc * 10 + (c.toNat - '0'.toNat)) 0)
  else none

/-- Reads a decimal integer with an optional leading `-`. -/
def parseInt : List Char → Option Int
  | '-' :: cs => (parseNat cs).map (fun (n : Nat) => -(n : Int))
  | cs => (parseNat cs).map (fun (n : Nat) => (n : Int))

/-- Splits at the first occurrence of `sep`, which is dropped. -/
def splitAtSep (sep : Char) : List Char → Option (List Char × List Char)
  | [] => none
  | c :: cs =>
    if c = sep then some ([], cs)
    else (splitAtSep sep cs).map (fun p => (c :: p.1, p.2))

/-- Reads a printed line back: the line must end in a newline and hold exactly one
`/`, with a decimal integer on each side. -/
def parseLine (l : List Char) : Option (Int × Int) :=
  if l.getLast? = some '\n' then
    match splitAtSep '/' l.dropLast with
    | some (a, b) =>
      if '/' ∈ b then none
      else
        match parseInt a, parseInt b with
        | some r, some s => some (r, s)
        | _, _ => none
    | none => none
  else none

/-! ## The program against a runtime -/

theorem run_of_returned (argc : Int) (argv : List String) (rt : Runtime)
    (st st2 st3 r s : Int) (hjoin : rt.init argc argv = .returned st)
    (hrank : rt.commRank = .returned (st2, r)) (hsize : rt.commSize = .returned (st3, s)) :
    run argc argv rt = .done ⟨fullTrace argc argv r s, line r s⟩ 0 := by
  simp [run, main, Bind.bind, Pure.pure, MPI_Init, MPI_Comm_rank, MPI_Comm_size,
    MPI_Finalize, call, hjoin, hrank, hsize, printf, World.start, fullTrace, line]

theorem run_of_init_terminated (argc : Int) (argv : List String) (rt : Runtime)
    (code : Int) (h : rt.init argc argv = .terminated code) :
    run argc argv rt = .killed ⟨[.MPI_Init argc argv], []⟩ code := by
  simp [run, main, Bind.bind, MPI_Init, call, h, World.start]

theorem run_of_rank_terminated (argc : Int) (argv : List String) (rt : Runtime)
    (st code : Int) (hjoin : rt.init argc argv = .returned st)
    (h : rt.commRank = .terminated code) :
    run argc argv rt = .killed ⟨[.MPI_Init argc argv, .MPI_Comm_rank], []⟩ code := by
  simp [run, main, Bind.bind, MPI_Init, MPI_Comm_rank, call, hjoin, h, World.start]

theorem run_of_size_terminated (argc : Int) (argv : List String) (rt : Runtime)
    (st code : Int) (sr : Int × Int) (hjoin : rt.init argc argv = .returned st)
    (hrank : rt.commRank = .returned sr) (h : rt.commSize = .terminated code) :
    run argc argv rt =
      .killed ⟨[.MPI_Init argc argv, .MPI_Comm_rank, .MPI_Comm_size], []⟩ code := by
  simp [run, main, Bind.bind, MPI_Init, MPI_Comm_rank, MPI_Comm_size, call, hjoin, hrank,
    h, World.start]

theorem rank?_eq_some {rt : Runtime} {r : Int} (h : rt.rank? = some r) :
    ∃ st, rt.commRank = .returned (st, r) := by
  unfold Runtime.rank? at h
  split at h
  · rename_i st r0 heq
    simp only [Option.some.injEq] at h
    exact ⟨st, by rw [heq, h]⟩
  · cases h

theorem size?_eq_some {rt : Runtime} {s : Int} (h : rt.size? = some s) :
    ∃ st, rt.commSize = .returned (st, s) := by
  unfold Runtime.size? at h
  split at h
  · rename_i st s0 heq
    simp only [Option.some.injEq] at h
    exact ⟨st, by rw [heq, h]⟩
  · cases h

theorem line_eq (r s : Int) : line r s = fmt_d r ++ '/' :: (fmt_d s ++ ['\n']) := by
  simp [line, format]

theorem fmt_d_eq_toString (x : Int) : fmt_d x = (toString x).toList := by
  cases x with
  | ofNat n => rfl
  | negSucc n =>
    have hneg : Int.negSucc n < 0 := Int.negSucc_lt_zero n
    rw [fmt_d, if_pos hneg]
    rfl


/-! ## Decimal numerals -/

theorem digitChar_spec : ∀ d, d < 10 →
    (Nat.digitChar d).isDigit = true ∧ (Nat.digitChar d).toNat - '0'.toNat = d := by
  decide

/-- Value of a string of decimal digits, most significant digit first. -/
theorem digitsValue_snoc (ds : List Char) (c : Char) :
    (ds ++ [c]).foldl (fun acc c => acc * 10 + (c.toNat - '0'.toNat)) 0 =
      ds.foldl (fun acc c => acc * 10 + (c.toNat - '0'.toNat)) 0 * 10 + (c.toNat - '0'.toNat) := by
  simp [List.foldl_append]

theorem toDigitsCore_spec : ∀ (fuel n : Nat) (acc : List Char), n < fuel →
    ∃ ds, Nat.toDigitsCore 10 fuel n acc = ds ++ acc ∧ ds ≠ [] ∧
      (∀ c ∈ ds, c.isDigit = true) ∧
      ds.foldl (fun acc c => acc * 10 + (c.toNat - '0'.toNat)) 0 = n := by
  intro fuel
  induction fuel with
  | zero => intro n acc h; omega
  | succ fuel ih =>
    intro n acc h
    have hd := digitChar_spec (n % 10) (Nat.mod_lt n (by decide))
    by_cases hq : n / 10 = 0
    · refine ⟨[Nat.digitChar (n % 10)], ?_, by simp, ?_, ?_⟩
      · simp [Nat.toDigitsCore, hq]
      · intro c hc
        simp only [List.mem_singleton] at hc
        rw [hc]; exact hd.1
      · simp only [List.foldl_cons, List.foldl_nil, hd.2]
        omega
    · obtain ⟨ds, hds, _, hdig, hval⟩ :=
        ih (n / 10) (Nat.digitChar (n % 10) :: acc) (by omega)
      refine ⟨ds ++ [Nat.digitChar (n % 10)], ?_, by simp, ?_, ?_⟩
      · simp [Nat.toDigitsCore, hq, hds]
      · intro c hc
        rcases List.mem_append.mp hc with hc | hc
        · exact hdig c hc
        · simp only [List.mem_singleton] at hc
          rw [hc]; exact hd.1
      · rw [digitsValue_snoc, hval, hd.2]
        omega

theorem toDigits_spec (n : Nat) :
    Nat.toDigits 10 n ≠ [] ∧ (∀ c ∈ Nat.toDigits 10 n, c.isDigit = true) ∧
      (Nat.toDigits 10 n).foldl (fun acc c => acc * 10 + (c.toNat - '0'.toNat)) 0 = n := by
  obtain ⟨ds, hds, hne, hdig, hval⟩ := toDigitsCore_spec (n + 1) n [] (Nat.lt_succ_self n)
  have : Nat.toDigits 10 n = ds := by simpa [Nat.toDigits] using hds
  rw [this]
  exact ⟨hne, hdig, hval⟩

theorem parseNat_toDigits (n : Nat) : parseNat (Nat.toDigits 10 n) = some n := by
  obtain ⟨hne, hdig, hval⟩ := toDigits_spec n
  have hall : (Nat.toDigits 10 n).all Char.isDigit = true := List.all_eq_true.mpr hdig
  rw [parseNat, if_pos ⟨hne, hall⟩, hval]

theorem isDigit_ne_minus {c : Char} (h : c.isDigit = true) : c ≠ '-' := by
  intro hc; rw [hc] at h; exact absurd h (by decide)

theorem isDigit_ne_slash {c : Char} (h : c.isDigit = true) : c ≠ '/' := by
  intro hc; rw [hc] at h; exact absurd h (by decide)

theorem isDigit_ne_newline {c : Char} (h : c.isDigit = true) : c ≠ '\n' := by
  intro hc; rw [hc] at h; exact absurd h (by decide)

theorem parseInt_of_not_minus (c : Char) (cs : List Char) (h : c ≠ '-') :
    parseInt (c :: cs) = (parseNat (c :: cs)).map (fun (n : Nat) => (n : Int)) := by
  unfold parseInt
  split
  · rename_i heq
    simp only [List.cons.injEq] at heq
    exact absurd heq.1 h
  · rfl

theorem parseInt_toDigits (n : Nat) : parseInt (Nat.toDigits 10 n) = some (n : Int) := by
  obtain ⟨hne, hdig, _⟩ := toDigits_spec n
  have hp := parseNat_toDigits n
  cases hds : Nat.toDigits 10 n with
  | nil => exact absurd hds hne
  | cons c cs =>
    rw [hds] at hdig hp
    rw [parseInt_of_not_minus c cs (isDigit_ne_minus (hdig c (List.mem_cons_self c cs))), hp]
    rfl

theorem parseInt_fmt_d (x : Int) : parseInt (fmt_d x) = some x := by
  unfold fmt_d
  split
  · rename_i hx
    show (parseNat (Nat.toDigits 10 x.natAbs)).map (fun (n : Nat) => -(n : Int)) = some x
    rw [parseNat_toDigits]
    simp only [Option.map_some', Option.some.injEq]
    omega
  · rename_i hx
    rw [parseInt_toDigits]
    simp only [Option.some.injEq]
    omega

theorem mem_fmt_d {x : Int} {c : Char} (h : c ∈ fmt_d x) : c = '-' ∨ c.isDigit = true := by
  unfold fmt_d at h
  split at h
  · rcases List.mem_cons.mp h with h | h
    · exact Or.inl h
    · exact Or.inr ((toDigits_spec _).2.1 c h)
  · exact Or.inr ((toDigits_spec _).2.1 c h)

theorem slash_not_mem_fmt_d (x : Int) : '/' ∉ fmt_d x := by
  intro h
  rcases mem_fmt_d h with h | h
  · exact absurd h (by decide)
  · exact absurd h (by decide)

theorem newline_not_mem_fmt_d (x : Int) : '\n' ∉ fmt_d x := by
  intro h
  rcases mem_fmt_d h with h | h
  · exact absurd h (by decide)
  · exact absurd h (by decide)

/-! ## The printed line -/

theorem splitAtSep_append (sep : Char) (xs ys : List Char) (h : sep ∉ xs) :
    splitAtSep sep (xs ++ sep :: ys) = some (xs, ys) := by
  induction xs with
  | nil => simp [splitAtSep]
  | cons c cs ih =>
    have hc : c ≠ sep := fun e => h (e ▸ List.mem_cons_self c cs)
    have hcs : sep ∉ cs := fun m => h (List.mem_cons_of_mem c m)
    simp [splitAtSep, hc, ih hcs]

theorem line_eq_snoc (r s : Int) : line r s = (fmt_d r ++ '/' :: fmt_d s) ++ ['\n'] := by
  rw [line_eq]; simp

theorem parseLine_line (r s : Int) : parseLine (line r s) = some (r, s) := by
  rw [line_eq_snoc]
  unfold parseLine
  rw [if_pos (List.getLast?_concat _), List.dropLast_concat,
    splitAtSep_append '/' (fmt_d r) (fmt_d s) (slash_not_mem_fmt_d r)]
  simp only [slash_not_mem_fmt_d s, if_false, parseInt_fmt_d]

theorem line_count_newline (r s : Int) : (line r s).count '\n' = 1 := by
  rw [line_eq_snoc]
  have h1 : (fmt_d r).count '\n' = 0 := List.count_eq_zero.mpr (newline_not_mem_fmt_d r)
  have h2 : (fmt_d s).count '\n' = 0 := List.count_eq_zero.mpr (newline_not_mem_fmt_d s)
  simp [List.count_cons, h1, h2]

theorem line_eq_toString (r s : Int) :
    line r s = (toString r ++ "/" ++ toString s ++ "\n").toList := by
  rw [line_eq, fmt_d_eq_toString, fmt_d_eq_toString]
  simp [String.toList]

theorem line_int_extremes :
    line INT_MIN INT_MAX = "-2147483648/2147483647\n".toList := by
  decide


theorem stdout_of_returned (argc : Int) (argv : List String) (rt : Runtime) (r s : Int)
    (hjoin : ∃ st, rt.init argc argv = .returned st)
    (hrank : rt.rank? = some r) (hsize : rt.size? = some s) :
    (run argc argv rt).world.stdout = line r s := by
  obtain ⟨st, hst⟩ := hjoin
  obtain ⟨st2, h2⟩ := rank?_eq_some hrank
  obtain ⟨st3, h3⟩ := size?_eq_some hsize
  rw [run_of_returned argc argv rt st st2 st3 r s hst h2 h3]
  rfl

theorem nothing_after_finalize (argc : Int) (argv : List String) (text : List Char)
    (pre post : List Op)
    (h : [Op.MPI_Init argc argv, Op.MPI_Comm_rank, Op.MPI_Comm_size, Op.printf text,
      Op.MPI_Finalize] = pre ++ Op.MPI_Finalize :: post) : post = [] := by
  rcases pre with _ | ⟨x1, _ | ⟨x2, _ | ⟨x3, _ | ⟨x4, _ | ⟨x5, pre⟩⟩⟩⟩⟩ <;> simp at h
  exact h.2.2.2.2

theorem trace_prefix (argc : Int) (argv : List String) (rt : Runtime) :
    ∃ text, (run argc argv rt).world.trace <+: [Op.MPI_Init argc argv, Op.MPI_Comm_rank,
      Op.MPI_Comm_size, Op.printf text, Op.MPI_Finalize] := by
  cases hinit : rt.init argc argv with
  | terminated code =>
    rw [run_of_init_terminated argc argv rt code hinit]
    exact ⟨[], _, rfl⟩
  | returned st =>
    cases hrank : rt.commRank with
    | terminated code =>
      rw [run_of_rank_terminated argc argv rt st code hinit hrank]
      exact ⟨[], _, rfl⟩
    | returned sr =>
      cases hsize : rt.commSize with
      | terminated code =>
        rw [run_of_size_terminated argc argv rt st code sr hinit hrank hsize]
        exact ⟨[], _, rfl⟩
      | returned ss =>
        rw [run_of_returned argc argv rt st sr.1 ss.1 sr.2 ss.2 hinit hrank hsize]
        exact ⟨line sr.2 ss.2, [], by simp [Step.world, fullTrace]⟩

/-! ## The claims -/

/-- C1: whenever the join call returns and the two queries hand a rank `r` and a size
`s` back to `main`, standard output holds exactly the decimal rendering of `r`, a `/`,
the decimal rendering of `s` and a newline; it holds a single newline; for rank 0 and
size 1 it is `0/1` plus newline, for rank 0 and size 4 it is `0/4` plus newline. -/
theorem main_prints_rank_slash_size (argc : Int) (argv : List String) (rt : Runtime)
    (st st2 st3 r s : Int) (hjoin : rt.init argc argv = .returned st)
    (hrank : rt.commRank = .returned (st2, r)) (hsize : rt.commSize = .returned (st3, s)) :
    (run argc argv rt).world.stdout = (toString r ++ "/" ++ toString s ++ "\n").toList ∧
      (run argc argv rt).world.stdout.count '\n' = 1 ∧
      (r = 0 → s = 1 → (run argc argv rt).world.stdout = ['0', '/', '1', '\n']) ∧
      (r = 0 → s = 4 → (run argc argv rt).world.stdout = ['0', '/', '4', '\n']) := by
  rw [run_of_returned argc argv rt st st2 st3 r s hjoin hrank hsize]
  refine ⟨line_eq_toString r s, line_count_newline r s, ?_, ?_⟩
  · intro hr hs
    show line r s = _
    rw [hr, hs]; decide
  · intro hr hs
    show line r s = _
    rw [hr, hs]; decide

theorem main_prints_rank_slash_size_witness :
    (run 1 ["mpi_print"] (rtOk 0 4)).world.stdout = ['0', '/', '4', '\n'] ∧
      (run 1 ["mpi_print"] (rtOk 0 4)).world.stdout.count '\n' = 1 :=
  have h := main_prints_rank_slash_size 1 ["mpi_print"] (rtOk 0 4)
    MPI_SUCCESS MPI_SUCCESS MPI_SUCCESS 0 4 rfl rfl rfl
  ⟨h.2.2.2 rfl rfl, h.2.1⟩

/-- C2: when `N` processes are launched, each joins, the runtime hands out the ranks
`0..N-1` once each and the size `N` to everyone, then there are `N` outputs, each a
single line that renders and reads back as a rank `r` with `0 ≤ r < N` and the size
`N`, and the ranks read back from the outputs are `0..N-1`, each exactly once. -/
theorem launch_prints_each_rank_once (N : Nat) (argc : Int) (argv : List String)
    (rts : List Runtime) (hlen : rts.length = N)
    (hjoin : ∀ rt ∈ rts, ∃ st, rt.init argc argv = .returned st)
    (hrank : (rts.map Runtime.rank?).Perm
      ((List.range N).map (fun (i : Nat) => some (i : Int))))
    (hsize : ∀ rt ∈ rts, rt.size? = some (N : Int)) :
    (outputs argc argv rts).length = N ∧
      (∀ o ∈ outputs argc argv rts, o.count '\n' = 1 ∧
        ∃ r : Int, o = (toString r ++ "/" ++ toString (N : Int) ++ "\n").toList ∧
          parseLine o = some (r, (N : Int)) ∧ 0 ≤ r ∧ r < (N : Int)) ∧
      (((outputs argc argv rts).filterMap parseLine).map Prod.fst).Perm
        ((List.range N).map (fun (i : Nat) => (i : Int))) := by
  have hrk : ∀ rt ∈ rts, ∃ i : Nat, i < N ∧ rt.rank? = some (i : Int) := by
    intro rt hrt
    have hmem : rt.rank? ∈ (List.range N).map (fun (i : Nat) => some (i : Int)) :=
      hrank.subset (List.mem_map.mpr ⟨rt, hrt, rfl⟩)
    obtain ⟨i, hi, hir⟩ := List.mem_map.mp hmem
    exact ⟨i, List.mem_range.mp hi, hir.symm⟩
  have hout : ∀ rt ∈ rts, ∃ i : Nat, i < N ∧ rt.rank? = some (i : Int) ∧
      (run argc argv rt).world.stdout = line (i : Int) (N : Int) := by
    intro rt hrt
    obtain ⟨i, hi, hir⟩ := hrk rt hrt
    exact ⟨i, hi, hir, stdout_of_returned argc argv rt _ _ (hjoin rt hrt) hir (hsize rt hrt)⟩
  refine ⟨by simpa [outputs] using hlen, ?_, ?_⟩
  · intro o ho
    obtain ⟨rt, hrt, rfl⟩ := List.mem_map.mp ho
    obtain ⟨i, hi, _, hline⟩ := hout rt hrt
    rw [hline]
    exact ⟨line_count_newline _ _, (i : Int), line_eq_toString _ _, parseLine_line _ _,
      Int.ofNat_nonneg i, Int.ofNat_lt.mpr hi⟩
  · have hparse : ((outputs argc argv rts).filterMap parseLine).map Prod.fst =
        (rts.map Runtime.rank?).filterMap id := by
      rw [outputs, List.filterMap_map, List.map_filterMap, List.filterMap_map]
      apply List.filterMap_congr
      intro rt hrt
      obtain ⟨i, _, hir, hline⟩ := hout rt hrt
      simp only [Function.comp_apply, hline, parseLine_line, Option.map_some', hir, id]
    have hrange : ((List.range N).map (fun (i : Nat) => some (i : Int))).filterMap id =
        (List.range N).map (fun (i : Nat) => (i : Int)) := by
      rw [List.filterMap_map, ← List.filterMap_eq_map]
      rfl
    rw [hparse, ← hrange]
    exact hrank.filterMap id

theorem launch_prints_each_rank_once_witness :
    outputs 1 ["mpi_print"] [rtOk 2 4, rtOk 0 4, rtOk 3 4, rtOk 1 4] =
        ["2/4\n".toList, "0/4\n".toList, "3/4\n".toList, "1/4\n".toList] ∧
      (((outputs 1 ["mpi_print"] [rtOk 2 4, rtOk 0 4, rtOk 3 4, rtOk 1 4]).filterMap
        parseLine).map Prod.fst).Perm ((List.range 4).map (fun (i : Nat) => (i : Int))) :=
  ⟨by decide,
    (launch_prints_each_rank_once 4 1 ["mpi_print"] [rtOk 2 4, rtOk 0 4, rtOk 3 4, rtOk 1 4]
      rfl
      (by intro rt hrt
          simp only [List.mem_cons, List.mem_singleton, List.not_mem_nil, or_false] at hrt
          rcases hrt with h | h | h | h <;> exact ⟨MPI_SUCCESS, by rw [h]; rfl⟩)
      (by decide)
      (by intro rt hrt
          simp only [List.mem_cons, List.mem_singleton, List.not_mem_nil, or_false] at hrt
          rcases hrt with h | h | h | h <;> (rw [h]; rfl))).2.2⟩

/-- C3: whenever the join call returns `MPI_SUCCESS`, `main` returns 0, whatever rank
and size the queries report. -/
theorem main_returns_zero_after_join (argc : Int) (argv : List String) (rt : Runtime)
    (st2 st3 r s : Int) (hjoin : rt.init argc argv = .returned MPI_SUCCESS)
    (hrank : rt.commRank = .returned (st2, r)) (hsize : rt.commSize = .returned (st3, s)) :
    ∃ w, run argc argv rt = .done w 0 :=
  ⟨_, run_of_returned argc argv rt MPI_SUCCESS st2 st3 r s hjoin hrank hsize⟩

theorem main_returns_zero_after_join_witness :
    ∃ w, run 1 ["mpi_print"] (rtOk 3 4) = .done w 0 :=
  main_returns_zero_after_join 1 ["mpi_print"] (rtOk 3 4) MPI_SUCCESS MPI_SUCCESS 3 4
    rfl rfl rfl


/-- C4: if the join fails, the runtime ends the process with a nonzero status:
`main` never reaches its `printf`, standard output stays empty, the exit status is
nonzero and `main` does not return 0; when the process is ended inside the join call
itself, the join is the only operation performed. -/
theorem join_failure_is_fatal (argc : Int) (argv : List String) (rt : Runtime)
    (hfail : joinFails rt argc argv = true) :
    (∃ w code, run argc argv rt = .killed w code ∧ code ≠ 0) ∧
      (run argc argv rt).world.stdout = [] ∧
      (∀ text, Op.printf text ∉ (run argc argv rt).world.trace) ∧
      (run argc argv rt).status ≠ 0 ∧
      (∀ w, run argc argv rt ≠ .done w 0) ∧
      (∀ code, rt.init argc argv = .terminated code →
        (run argc argv rt).world.trace = [.MPI_Init argc argv]) := by
  unfold joinFails at hfail
  cases hinit : rt.init argc argv with
  | terminated code =>
    rw [hinit] at hfail
    have hcode : code ≠ 0 := by simpa using hfail
    rw [run_of_init_terminated argc argv rt code hinit]
    refine ⟨⟨_, code, rfl, hcode⟩, rfl, ?_, hcode, ?_, ?_⟩
    · intro text hmem
      simp [Step.world] at hmem
    · intro w hw
      cases hw
    · intro _ _
      rfl
  | returned st =>
    rw [hinit] at hfail
    cases hrank : rt.commRank with
    | returned sr =>
      rw [hrank] at hfail
      simp at hfail
    | terminated code =>
      rw [hrank] at hfail
      have hcode : code ≠ 0 := by
        have := hfail
        simp at this
        exact this.2
      rw [run_of_rank_terminated argc argv rt st code hinit hrank]
      refine ⟨⟨_, code, rfl, hcode⟩, rfl, ?_, hcode, ?_, ?_⟩
      · intro text hmem
        simp [Step.world] at hmem
      · intro w hw
        cases hw
      · intro code' hc
        cases hc

theorem join_failure_is_fatal_witness :
    (run 1 ["mpi_print"] rtJoinFatal).world.trace = [.MPI_Init 1 ["mpi_print"]] ∧
      (run 1 ["mpi_print"] rtJoinFatal).world.stdout = [] ∧
      (run 1 ["mpi_print"] rtJoinFatal).status ≠ 0 ∧
      (run 1 ["mpi_print"] rtJoinErrorThenFatal).world.stdout = [] ∧
      (run 1 ["mpi_print"] rtJoinErrorThenFatal).status ≠ 0 :=
  have h1 := join_failure_is_fatal 1 ["mpi_print"] rtJoinFatal (by decide)
  have h2 := join_failure_is_fatal 1 ["mpi_print"] rtJoinErrorThenFatal (by decide)
  ⟨h1.2.2.2.2.2 1 rfl, h1.2.1, h1.2.2.2.1, h2.2.1, h2.2.2.2.1⟩

/-- C5, counterexample: when the runtime ends the process inside the join call, the
trace is the join alone, not the five-step sequence. -/
theorem join_fatal_trace_is_join_only :
    (run 1 ["mpi_print"] rtJoinFatal).world.trace = [.MPI_Init 1 ["mpi_print"]] ∧
      ∀ text, (run 1 ["mpi_print"] rtJoinFatal).world.trace ≠
        [.MPI_Init 1 ["mpi_print"], .MPI_Comm_rank, .MPI_Comm_size, .printf text,
          .MPI_Finalize] := by
  have h : (run 1 ["mpi_print"] rtJoinFatal).world.trace = [.MPI_Init 1 ["mpi_print"]] := by
    decide
  refine ⟨h, ?_⟩
  intro text ht
  rw [h] at ht
  simp at ht

/-- C5, amended: on every execution in which the join call and the two queries
return, the trace is exactly join, rank query, size query, print of the line, leave,
in that order and once each; on every execution the trace is a prefix of such a
sequence, and nothing is performed after the leave step. -/
theorem trace_is_linear (argc : Int) (argv : List String) (rt : Runtime) :
    (∀ st st2 st3 r s, rt.init argc argv = .returned st →
        rt.commRank = .returned (st2, r) → rt.commSize = .returned (st3, s) →
        (run argc argv rt).world.trace =
          [.MPI_Init argc argv, .MPI_Comm_rank, .MPI_Comm_size, .printf (line r s),
            .MPI_Finalize]) ∧
      (∃ text, (run argc argv rt).world.trace <+: [.MPI_Init argc argv, .MPI_Comm_rank,
        .MPI_Comm_size, .printf text, .MPI_Finalize]) ∧
      (∀ pre post, (run argc argv rt).world.trace = pre ++ Op.MPI_Finalize :: post →
        post = []) := by
  refine ⟨?_, trace_prefix argc argv rt, ?_⟩
  · intro st st2 st3 r s hjoin hrank hsize
    rw [run_of_returned argc argv rt st st2 st3 r s hjoin hrank hsize]
    rfl
  · intro pre post hsplit
    obtain ⟨text, rest, hrest⟩ := trace_prefix argc argv rt
    rw [hsplit, List.append_assoc, List.cons_append] at hrest
    have hnil := nothing_after_finalize argc argv text pre (post ++ rest) hrest.symm
    exact (List.append_eq_nil.mp hnil).1

theorem trace_is_linear_witness :
    (run 1 ["mpi_print"] (rtOk 3 4)).world.trace =
      [.MPI_Init 1 ["mpi_print"], .MPI_Comm_rank, .MPI_Comm_size,
        .printf (line 3 4), .MPI_Finalize] :=
  (trace_is_linear 1 ["mpi_print"] (rtOk 3 4)).1 MPI_SUCCESS MPI_SUCCESS MPI_SUCCESS 3 4
    rfl rfl rfl

/-- C6: the launch arguments reach the join call and nothing else: two runs with
different `argc`/`argv` whose join calls return and whose queries hand back the same
rank and size write the same output and end with the same exit status; the first
operation is the join carrying `argc`/`argv`, and the rest of the two traces is the
same. -/
theorem launch_arguments_not_examined (argc argc' : Int) (argv argv' : List String)
    (rt rt' : Runtime) (st st' st2 st2' st3 st3' r s : Int)
    (hjoin : rt.init argc argv = .returned st)
    (hjoin' : rt'.init argc' argv' = .returned st')
    (hrank : rt.commRank = .returned (st2, r)) (hrank' : rt'.commRank = .returned (st2', r))
    (hsize : rt.commSize = .returned (st3, s)) (hsize' : rt'.commSize = .returned (st3', s)) :
    (run argc argv rt).world.stdout = (run argc' argv' rt').world.stdout ∧
      (run argc argv rt).status = (run argc' argv' rt').status ∧
      (run argc argv rt).world.trace.head? = some (.MPI_Init argc argv) ∧
      (run argc argv rt).world.trace.tail = (run argc' argv' rt').world.trace.tail := by
  rw [run_of_returned argc argv rt st st2 st3 r s hjoin hrank hsize,
    run_of_returned argc' argv' rt' st' st2' st3' r s hjoin' hrank' hsize']
  exact ⟨rfl, rfl, rfl, rfl⟩

theorem launch_arguments_not_examined_witness :
    (run 1 ["mpi_print"] (rtOk 2 4)).world.stdout =
        (run 3 ["mpi_print", "-v", "x"] (rtOk 2 4)).world.stdout ∧
      (run 1 ["mpi_print"] (rtOk 2 4)).status =
        (run 3 ["mpi_print", "-v", "x"] (rtOk 2 4)).status :=
  have h := launch_arguments_not_examined 1 3 ["mpi_print"] ["mpi_print", "-v", "x"]
    (rtOk 2 4) (rtOk 2 4) MPI_SUCCESS MPI_SUCCESS MPI_SUCCESS MPI_SUCCESS MPI_SUCCESS
    MPI_SUCCESS 2 4 rfl rfl rfl rfl rfl rfl
  ⟨h.1, h.2.1⟩

/-- C7: for every combination of status codes returned by the four runtime calls,
the run is the same: the five operations in order, each runtime call exactly once,
the same output, and `main` returns 0; it equals the run in which the four calls
return `MPI_SUCCESS`. -/
theorem status_codes_discarded (argc : Int) (argv : List String)
    (st1 st2 st3 st4 r s : Int) :
    run argc argv ⟨fun _ _ => .returned st1, .returned (st2, r), .returned (st3, s), st4⟩ =
        .done ⟨[.MPI_Init argc argv, .MPI_Comm_rank, .MPI_Comm_size, .printf (line r s),
                .MPI_Finalize], line r s⟩ 0 ∧
      run argc argv ⟨fun _ _ => .returned st1, .returned (st2, r), .returned (st3, s), st4⟩ =
        run argc argv (rtOk r s) ∧
      (run argc argv ⟨fun _ _ => .returned st1, .returned (st2, r), .returned (st3, s),
        st4⟩).world.trace.count (.MPI_Init argc argv) = 1 ∧
      (run argc argv ⟨fun _ _ => .returned st1, .returned (st2, r), .returned (st3, s),
        st4⟩).world.trace.count .MPI_Comm_rank = 1 ∧
      (run argc argv ⟨fun _ _ => .returned st1, .returned (st2, r), .returned (st3, s),
        st4⟩).world.trace.count .MPI_Comm_size = 1 ∧
      (run argc argv ⟨fun _ _ => .returned st1, .returned (st2, r), .returned (st3, s),
        st4⟩).world.trace.count .MPI_Finalize = 1 := by
  rw [run_of_returned argc argv
      ⟨fun _ _ => .returned st1, .returned (st2, r), .returned (st3, s), st4⟩
      st1 st2 st3 r s rfl rfl rfl,
    run_of_returned argc argv (rtOk r s) MPI_SUCCESS MPI_SUCCESS MPI_SUCCESS r s rfl rfl rfl]
  refine ⟨rfl, rfl, ?_, ?_, ?_, ?_⟩ <;> simp [Step.world, fullTrace, List.count_cons]

end MpiPrint
